import Mathlib

/-!
Verification of the LaTeX metadata extraction engine of this repository
(file anthology/latex_parser.py, class LaTeXMetadataExtractor).

The source text is modelled as a list of characters; Python string indices
become natural-number indices into that list.  Every scanning routine of the
source is translated into a computable, structurally recursive Lean function,
so that each definition evaluates on concrete inputs by kernel reduction.
Python dictionaries are modelled as association lists together with an
insert-with-overwrite operation that preserves Python's insertion-order
semantics.  The Python functions modelled here are total (they raise no
exception on any input), which the embedding reflects by total Lean
functions.
-/

/-- The six ASCII whitespace characters recognised by Python's str.strip
and by the regex whitespace class (ASCII text assumed throughout). -/
def isSpace (c : Char) : Bool :=
  c == ' ' || c == '\t' || c == '\n' || c == '\r' || c == '\x0b' || c == '\x0c'

/-- A word character of the regex word class, ASCII range. -/
def isWordChar (c : Char) : Bool :=
  ('a' ≤ c && c ≤ 'z') || ('A' ≤ c && c ≤ 'Z') || ('0' ≤ c && c ≤ '9') || c == '_'

/-- Python str.strip: remove leading and trailing whitespace. -/
def stripChars (l : List Char) : List Char :=
  ((l.dropWhile isSpace).reverse.dropWhile isSpace).reverse

/-- Python slice text[a:b] for 0 ≤ a ≤ b (clamped at the end of the list). -/
def pySlice (text : List Char) (a b : Nat) : List Char :=
  (text.drop a).take (b - a)

/-- Match a literal list of characters at the front of a list, returning the
remainder on success (used to model matching a literal part of a regex). -/
def dropLit : List Char → List Char → Option (List Char)
  | [], s => some s
  | _ :: _, [] => none
  | c :: cs, x :: xs => if x = c then dropLit cs xs else none

/-- Worker for commaSplit, carrying the piece accumulated so far. -/
def commaSplitGo : List Char → List Char → List (List Char)
  | [], cur => [cur]
  | c :: rest, cur =>
    if c = ',' then cur :: commaSplitGo rest []
    else commaSplitGo rest (cur ++ [c])

/-- Python s.split on a single comma separator: split at every comma,
keeping empty pieces; the result is always nonempty. -/
def commaSplit (s : List Char) : List (List Char) :=
  commaSplitGo s []

/-- Python dict assignment d[k] = v modelled on an insertion-ordered
association list: overwrite the value in place if the key is present,
otherwise append the new binding at the end. -/
def dInsert {α : Type} (d : List (List Char × α)) (k : List Char) (v : α) :
    List (List Char × α) :=
  if d.any (fun p => p.1 == k) then
    d.map (fun p => if p.1 = k then (k, v) else p)
  else d ++ [(k, v)]

/-- Python dict lookup d[k], with d.get-style none when the key is absent. -/
def dLookup {α : Type} (k : List Char) (d : List (List Char × α)) : Option α :=
  (d.find? (fun p => p.1 == k)).map (fun p => p.2)

/-!
## The balanced-delimiter scanners

extract_balanced_braces and extract_balanced_brackets share one loop shape;
the loop is embedded once, parameterised by the opening and closing
delimiter, and instantiated twice exactly as in the source.  The loop walks
the remaining suffix of the text while tracking the absolute index i and the
running delimiter count.  The source skips the character after a backslash
by advancing the index twice in one iteration; here the same behaviour is
the implicit two-state automaton made explicit: a Boolean records that the
previous character was an unconsumed backslash, in which case the current
character is passed over without touching the count.  The loop returns the
absolute index of the closing delimiter that brings the count to zero, or
none when the text ends first (the unterminated case).
-/

/-- The scanning loop of extract_balanced_braces / extract_balanced_brackets:
given the suffix of the text starting at index i, the running count, and
whether the previous character was an active backslash, return the absolute
index of the matching closing delimiter, if any. -/
def ebLoopE (op cl : Char) : List Char → Nat → Int → Bool → Option Nat
  | [], _, _, _ => none
  | _ :: rest, i, cnt, true => ebLoopE op cl rest (i + 1) cnt false
  | c :: rest, i, cnt, false =>
    if c = op then ebLoopE op cl rest (i + 1) (cnt + 1) false
    else if c = cl then
      if cnt - 1 = 0 then some i else ebLoopE op cl rest (i + 1) (cnt - 1) false
    else if c = '\\' then ebLoopE op cl rest (i + 1) cnt true
    else ebLoopE op cl rest (i + 1) cnt false

/-- extract_balanced_braces(text, start_pos): if start_pos does not point at
an opening brace (including positions at or past the end) the result is
(none, start_pos); otherwise the loop scans for the matching close and on
success returns the content strictly between the braces together with the
index one past the closing brace; an unterminated scan again yields
(none, start_pos).  The function is total: no input raises an error. -/
def extract_balanced_braces (text : List Char) (start_pos : Nat) :
    Option (List Char) × Nat :=
  if (text.drop start_pos).head? = some '{' then
    match ebLoopE '{' '}' (text.drop start_pos) start_pos 0 false with
    | some j => (some (pySlice text (start_pos + 1) j), j + 1)
    | none => (none, start_pos)
  else (none, start_pos)

/-- extract_balanced_brackets(text, start_pos), the square-bracket twin of
extract_balanced_braces. -/
def extract_balanced_brackets (text : List Char) (start_pos : Nat) :
    Option (List Char) × Nat :=
  if (text.drop start_pos).head? = some '[' then
    match ebLoopE '[' ']' (text.drop start_pos) start_pos 0 false with
    | some j => (some (pySlice text (start_pos + 1) j), j + 1)
    | none => (none, start_pos)
  else (none, start_pos)

/-- Balanced content for a delimiter pair under the scanner's escape-aware
counting: the empty list is balanced; a backslash absorbs the following
character whatever it is; any character other than the two delimiters and
the backslash passes through; and an opening delimiter, balanced inner
content, its closing delimiter and further balanced content form balanced
content.  These are exactly the contents over which the scanner's running
count comes back to its entry value precisely at the next closing
delimiter. -/
inductive Bal (op cl : Char) : List Char → Prop where
  | nil : Bal op cl []
  | esc : ∀ (c : Char) (rest : List Char), Bal op cl rest →
      Bal op cl ('\\' :: c :: rest)
  | chr : ∀ (c : Char) (rest : List Char), c ≠ op → c ≠ cl → c ≠ '\\' →
      Bal op cl rest → Bal op cl (c :: rest)
  | nest : ∀ (inner rest : List Char), Bal op cl inner → Bal op cl rest →
      Bal op cl (op :: (inner ++ cl :: rest))

/-- A suffix in which the running depth, entered at 1, returns to 0 at some
closing delimiter: the suffix splits as balanced content followed by the
closing delimiter. -/
def HasClose (op cl : Char) (s : List Char) : Prop :=
  ∃ content rest, s = content ++ cl :: rest ∧ Bal op cl content

/-- Nested delimiters of the given depth, e.g. three opens followed by three
closes at depth 3. -/
def nestN (op cl : Char) : Nat → List Char
  | 0 => []
  | n + 1 => op :: (nestN op cl n ++ [cl])

/-!
## Regex-based extractors

The extractors below use Python regular expressions whose action on any
input is deterministic (every starred class in them is forced: a maximal
run followed by a mandatory literal that the class excludes).  Each pattern
is therefore embedded as a total matcher returning the captured groups and
the rest of the text after the match, and re.finditer / re.findall becomes
a left-to-right scan that, at each position, either takes the match and
resumes after it or advances one character.
-/

/-- Value in a parse_key_value_pairs result: a string, or Python True for a
boolean flag. -/
inductive PyVal where
  | str : List Char → PyVal
  | tru : PyVal
  deriving DecidableEq

/-- The nesting delta of parse_key_value_pairs: one shared counter, up on
any opener, down on any closer. -/
def pkvDelta (c : Char) : Int :=
  if c = '(' || c = '[' || c = '{' then 1
  else if c = ')' || c = ']' || c = '}' then -1
  else 0

/-- The comma-splitting loop of parse_key_value_pairs: cut at commas seen
at depth 0, stripping each piece as it is appended; the final piece is kept
only if it is nonempty after stripping. -/
def pkvParts : List Char → List Char → Int → List (List Char)
  | [], cur, _ => if stripChars cur = [] then [] else [stripChars cur]
  | c :: rest, cur, pc =>
    if c = ',' ∧ pc = 0 then stripChars cur :: pkvParts rest [] pc
    else pkvParts rest (cur ++ [c]) (pc + pkvDelta c)

/-- The per-part step of parse_key_value_pairs: a part containing an equals
sign is split at its first equals sign into stripped key and value; a part
that is nonempty after stripping becomes a boolean flag; anything else is
ignored. -/
def pkvStep (pairs : List (List Char × PyVal)) (part : List Char) :
    List (List Char × PyVal) :=
  if '=' ∈ part then
    dInsert pairs (stripChars (part.takeWhile (fun c => ¬ c = '=')))
      (PyVal.str (stripChars ((part.dropWhile (fun c => ¬ c = '=')).tail)))
  else if ¬ stripChars part = [] then dInsert pairs (stripChars part) PyVal.tru
  else pairs

/-- parse_key_value_pairs(content): empty content gives the empty mapping;
otherwise split at depth-0 commas and fold the parts into a dict. -/
def parse_key_value_pairs (content : List Char) : List (List Char × PyVal) :=
  if content = [] then [] else (pkvParts content [] 0).foldl pkvStep []

/-- Reference nesting delta, written from the claim's words: a single
shared depth counter that increases on an opening parenthesis, bracket or
brace and decreases on a closing one. -/
def specDelta (c : Char) : Int :=
  if c = '(' || c = '[' || c = '{' then 1
  else if c = ')' || c = ']' || c = '}' then -1
  else 0

/-- Reference splitting, written from the claim's words: split the content
on commas occurring at nesting depth 0, keeping every raw segment. -/
def specSegments : List Char → List Char → Int → List (List Char)
  | [], cur, _ => [cur]
  | c :: rest, cur, depth =>
    if c = ',' ∧ depth = 0 then cur :: specSegments rest [] depth
    else specSegments rest (cur ++ [c]) (depth + specDelta c)

/-- Reference per-segment mapping, written from the claim's words: a
(trimmed) segment containing an equals sign is split on the first equals
sign only, into a trimmed key and trimmed value; a non-empty segment
without an equals sign becomes a key mapped to boolean true; an empty
segment contributes nothing. -/
def specStep (m : List (List Char × PyVal)) (seg : List Char) :
    List (List Char × PyVal) :=
  if '=' ∈ seg then
    dInsert m (stripChars (seg.takeWhile (fun c => ¬ c = '=')))
      (PyVal.str (stripChars ((seg.dropWhile (fun c => ¬ c = '=')).tail)))
  else if ¬ seg = [] then dInsert m seg PyVal.tru
  else m

/-- Reference definition of parse_key_value_pairs assembled from the
claim's words: split on depth-0 commas, trim each top-level segment, then
map each segment to a key/value binding or flag. -/
def parse_key_value_pairs_spec (content : List Char) :
    List (List Char × PyVal) :=
  ((specSegments content [] 0).map stripChars).foldl specStep []

/-- The capture of the single-argument macro pattern: content that may
contain one level of nested brace groups but no deeper nesting.  The
Boolean state records whether the scan is inside a nested group; the
accumulator collects the capture in reverse.  On success, returns the
capture and the rest of the text after the macro's closing brace.  This is
the (deterministic) action of the greedy capture used by the simple-macro,
author, affiliation-text and commented-macro patterns. -/
def reContentGo : List Char → Bool → List Char →
    Option (List Char × List Char)
  | [], _, _ => none
  | c :: rest, false, acc =>
    if c = '}' then some (acc.reverse, rest)
    else if c = '{' then reContentGo rest true (c :: acc)
    else reContentGo rest false (c :: acc)
  | c :: rest, true, acc =>
    if c = '}' then reContentGo rest false (c :: acc)
    else if c = '{' then none
    else reContentGo rest true (c :: acc)

/-- The one-level capture run from the top-level state with an empty
accumulator. -/
def reContent (s : List Char) : Option (List Char × List Char) :=
  reContentGo s false []

/-- Checks that a list of characters is consumed in full by the one-level
capture: all braces in it occur as non-nested groups, so a closing brace
appended after it is the one that ends the capture. -/
def arg1 : List Char → Bool → Bool
  | [], inside => !inside
  | c :: rest, false =>
    if c = '}' then false
    else if c = '{' then arg1 rest true
    else arg1 rest false
  | c :: rest, true =>
    if c = '{' then false
    else if c = '}' then arg1 rest false
    else arg1 rest true

/-- One pass of re.finditer / re.findall: attempt a match at the current
position; on success emit its result and resume after the match, otherwise
advance one character.  Structural in the fuel, which the wrapper sets to
the length of the scanned text (every successful match consumes at least
one character, so that much fuel is always enough). -/
def scanGo {α : Type} (f : List Char → Option (α × List Char)) :
    Nat → List Char → List α
  | 0, _ => []
  | fuel + 1, [] => (f []).elim [] (fun p => p.1 :: scanGo f fuel p.2)
  | fuel + 1, c :: rest =>
    (f (c :: rest)).elim (scanGo f fuel rest)
      (fun p => p.1 :: scanGo f fuel p.2)

/-- The left-to-right non-overlapping match scan over a whole text. -/
def scan {α : Type} (f : List Char → Option (α × List Char))
    (s : List Char) : List α :=
  scanGo f s.length s

/-- Match of the simple-macro pattern for one macro name at the current
position: a backslash, the name, optional whitespace, an opening brace,
the one-level capture and its closing brace; returns the capture and the
rest of the text after the match. -/
def matchSimple (name : List Char) (s : List Char) :
    Option (List Char × List Char) :=
  match dropLit ('\\' :: name) s with
  | none => none
  | some s1 =>
    match s1.dropWhile isSpace with
    | [] => none
    | c :: s2 => if c = '{' then reContent s2 else none

/-- re.findall of the simple-macro pattern for one name. -/
def findallSimple (name text : List Char) : List (List Char) :=
  scan (matchSimple name) text

/-- Value shape of extract_simple_macros: a scalar for a single occurrence
or a list for repeated occurrences. -/
inductive SimpleVal where
  | one : List Char → SimpleVal
  | many : List (List Char) → SimpleVal
  deriving DecidableEq

/-- The default macro-name list of extract_simple_macros. -/
def defaultMacroNames : List (List Char) :=
  ["title".toList, "keywords".toList, "pubyear".toList, "pubvolume".toList,
   "pagestart".toList, "pageend".toList, "doi".toList,
   "addbibresource".toList]

/-- The per-name step of extract_simple_macros: no match leaves the results
untouched (the name stays absent); a single match binds the name to its
stripped capture; several matches bind it to the list of stripped captures
in document order. -/
def simpleStep (text : List Char) (results : List (List Char × SimpleVal))
    (name : List Char) : List (List Char × SimpleVal) :=
  match findallSimple name text with
  | [] => results
  | [m] => dInsert results name (SimpleVal.one (stripChars m))
  | ms => dInsert results name (SimpleVal.many (ms.map stripChars))

/-- extract_simple_macros(text, macro name list or the default). -/
def extract_simple_macros (text : List Char)
    (names : Option (List (List Char))) : List (List Char × SimpleVal) :=
  (names.getD defaultMacroNames).foldl (simpleStep text) []

/-- An extracted author record. -/
structure Author where
  name : List Char
  affiliation_numbers : List (List Char)
  metadata : List (List Char × PyVal)
  deriving DecidableEq

/-- The affiliation-number list of one author match: absent or empty
bracket group gives the empty list, otherwise the stripped group content is
split at commas and each piece stripped. -/
def authorAffNums (g1 : Option (List Char)) : List (List Char) :=
  match g1 with
  | none => []
  | some g =>
    if g = [] then []
    else if stripChars g = [] then []
    else (commaSplit (stripChars g)).map stripChars

/-- The metadata mapping of one author match: after the match end, skip
whitespace; if an opening bracket follows, its balanced content (when
found and nonempty) is parsed as key/value pairs; otherwise the mapping is
empty.  The source passes the full text and the absolute position to
extract_balanced_brackets; since that scanner only reads forward from its
start position, passing the suffix with position 0 is the same
computation. -/
def authorMetadata (after : List Char) : List (List Char × PyVal) :=
  if (after.dropWhile isSpace).head? = some '[' then
    match (extract_balanced_brackets (after.dropWhile isSpace) 0).1 with
    | some mc => if mc = [] then [] else parse_key_value_pairs mc
    | none => []
  else []

/-- The author record built from the two captured groups of one match and
the text following the match. -/
def buildAuthor (g1 : Option (List Char)) (g2 after : List Char) : Author :=
  { name := stripChars g2,
    affiliation_numbers := authorAffNums g1,
    metadata := authorMetadata after }

/-- The part of the author pattern after the optional bracket group:
optional whitespace, an opening brace, the one-level name capture and its
closing brace. -/
def matchAuthorBody (g1 : Option (List Char)) (s1 : List Char) :
    Option (Author × List Char) :=
  match s1.dropWhile isSpace with
  | [] => none
  | c :: s2 =>
    if c = '{' then
      match reContent s2 with
      | some (g2, after) => some (buildAuthor g1 g2 after, after)
      | none => none
    else none

/-- The literal author command. -/
def authorLit : List Char := "\\author".toList

/-- Match of the author pattern at the current position.  When the command
is followed by an opening bracket, the bracket group is mandatory for the
match to proceed from there: if it never closes, the regex's fallback
without the optional group would have to match an opening brace where the
bracket stands, which fails. -/
def matchAuthor (s : List Char) : Option (Author × List Char) :=
  match dropLit authorLit s with
  | none => none
  | some s1 =>
    match s1 with
    | [] => none
    | c :: s2 =>
      if c = '[' then
        match s2.dropWhile (fun x => ¬ x = ']') with
        | [] => none
        | _ :: s3 =>
          matchAuthorBody (some (s2.takeWhile (fun x => ¬ x = ']'))) s3
      else matchAuthorBody none s1

/-- extract_author_macros(text): one record per author match, in document
order. -/
def extract_author_macros (text : List Char) : List Author :=
  scan matchAuthor text

/-- An extracted affiliation record. -/
structure Affiliation where
  number : List Char
  text : List Char
  deriving DecidableEq

/-- The literal affiliation command. -/
def affiliationLit : List Char := "\\affiliation".toList

/-- Match of the affiliation pattern at the current position: the command,
optional whitespace, a braced run without closing braces (the number
group), optional whitespace, then a braced one-level capture (the text
group); both groups stripped. -/
def matchAffiliation (s : List Char) : Option (Affiliation × List Char) :=
  match dropLit affiliationLit s with
  | none => none
  | some s1 =>
    match s1.dropWhile isSpace with
    | [] => none
    | c :: s2 =>
      if c = '{' then
        match s2.dropWhile (fun x => ¬ x = '}') with
        | [] => none
        | _ :: s3 =>
          match s3.dropWhile isSpace with
          | [] => none
          | c2 :: s4 =>
            if c2 = '{' then
              match reContent s4 with
              | some (g2, after) =>
                some ({ number := stripChars (s2.takeWhile (fun x => ¬ x = '}')),
                        text := stripChars g2 }, after)
              | none => none
            else none
      else none

/-- extract_affiliation_macros(text): one record per affiliation match, in
document order. -/
def extract_affiliation_macros (text : List Char) : List Affiliation :=
  scan matchAffiliation text

/-- Match of the commented-macro pattern at the current position: a percent
sign, a backslash, a nonempty run of word characters (the name), optional
whitespace, then a braced one-level capture (the content). -/
def matchCommented (s : List Char) :
    Option ((List Char × List Char) × List Char) :=
  match s with
  | [] => none
  | c :: rest =>
    if c = '%' then
      match rest with
      | [] => none
      | c2 :: s1 =>
        if c2 = '\\' then
          if s1.takeWhile isWordChar = [] then none
          else
            match (s1.dropWhile isWordChar).dropWhile isSpace with
            | [] => none
            | c3 :: s2 =>
              if c3 = '{' then
                match reContent s2 with
                | some (content, after) =>
                  some ((s1.takeWhile isWordChar, content), after)
                | none => none
              else none
        else none
    else none

/-- extract_commented_macros(text): scan the commented-macro matches in
document order and fold them into a dict, so that a later occurrence of a
name overwrites an earlier one. -/
def extract_commented_macros (text : List Char) :
    List (List Char × List Char) :=
  (scan matchCommented text).foldl (fun d p => dInsert d p.1 (stripChars p.2)) []

/-- The metadata record assembled by extract_all_metadata. -/
structure Metadata where
  title : Option SimpleVal
  authors : List Author
  affiliations : List Affiliation
  keywords : Option SimpleVal
  publication_info : List (List Char × SimpleVal)
  commented_macros : List (List Char × List Char)
  deriving DecidableEq

/-- The six publication-information field names copied into
publication_info. -/
def pubFields : List (List Char) :=
  ["pubyear".toList, "pubvolume".toList, "pagestart".toList,
   "pageend".toList, "doi".toList, "addbibresource".toList]

/-- extract_all_metadata(latex_content): run every extractor once and
assemble the record; title and keywords are lifted from the simple-macro
mapping when present, and the recognised publication fields are copied into
publication_info in their fixed order. -/
def extract_all_metadata (latex_content : List Char) : Metadata :=
  let simple_macros := extract_simple_macros latex_content none
  { title := dLookup "title".toList simple_macros,
    authors := extract_author_macros latex_content,
    affiliations := extract_affiliation_macros latex_content,
    keywords := dLookup "keywords".toList simple_macros,
    publication_info := pubFields.foldl (fun d f =>
      match dLookup f simple_macros with
      | some v => dInsert d f v
      | none => d) [],
    commented_macros := extract_commented_macros latex_content }

/-- A joined author record of format_authors_with_affiliations. -/
structure FormattedAuthor where
  name : List Char
  affiliations : List (List Char × List Char)
  metadata : List (List Char × PyVal)
  deriving DecidableEq

/-- The affiliation lookup dict of format_authors_with_affiliations: each
number maps to its text, later entries overwriting earlier ones. -/
def buildAffLookup (affs : List Affiliation) : List (List Char × List Char) :=
  affs.foldl (fun d a => dInsert d a.number a.text) []

/-- format_authors_with_affiliations(metadata): for each author, resolve
its affiliation numbers through the lookup in order, silently skipping any
number with no entry. -/
def format_authors_with_affiliations (m : Metadata) : List FormattedAuthor :=
  let affiliation_lookup := buildAffLookup m.affiliations
  m.authors.map (fun author =>
    { name := author.name,
      affiliations := author.affiliation_numbers.foldl (fun acc aff_num =>
        match dLookup aff_num affiliation_lookup with
        | some t => acc ++ [(aff_num, t)]
        | none => acc) [],
      metadata := author.metadata })

/-- The text of the last affiliation in a list carrying a given number
token, if any (the resolution format_authors_with_affiliations actually
performs, stated without the intermediate dict). -/
def lastAffText (affs : List Affiliation) (t : List Char) :
    Option (List Char) :=
  (affs.reverse.find? (fun a => a.number == t)).map (fun a => a.text)

theorem bal_nestN (op cl : Char) : ∀ n, Bal op cl (nestN op cl n) := by
  intro n
  induction n with
  | zero => exact Bal.nil
  | succ k ih =>
    have h : nestN op cl (k + 1) = op :: (nestN op cl k ++ cl :: []) := rfl
    rw [h]
    exact Bal.nest _ _ ih Bal.nil

theorem bal_of_no_delims (op cl : Char) {l : List Char}
    (h : ∀ c ∈ l, c ≠ op ∧ c ≠ cl ∧ c ≠ '\\') : Bal op cl l := by
  induction l with
  | nil => exact Bal.nil
  | cons c rest ih =>
    have hc := h c (List.mem_cons_self c rest)
    exact Bal.chr c rest hc.1 hc.2.1 hc.2.2
      (ih (fun x hx => h x (List.mem_cons_of_mem c hx)))

theorem ebLoopE_esc2 (op cl : Char) (hop : op ≠ '\\') (hcl : cl ≠ '\\')
    (d : Char) (rest : List Char) (i : Nat) (cnt : Int) :
    ebLoopE op cl ('\\' :: d :: rest) i cnt false =
      ebLoopE op cl rest (i + 2) cnt false := by
  have h1 : ('\\' : Char) ≠ op := Ne.symm hop
  have h2 : ('\\' : Char) ≠ cl := Ne.symm hcl
  show (if '\\' = op then _ else _) = _
  rw [if_neg h1, if_neg h2, if_pos rfl]
  show ebLoopE op cl rest (i + 1 + 1) cnt false = _
  have : i + 1 + 1 = i + 2 := by omega
  rw [this]

theorem ebLoopE_chr (op cl : Char) (c : Char) (hco : c ≠ op) (hcc : c ≠ cl)
    (hcb : c ≠ '\\') (rest : List Char) (i : Nat) (cnt : Int) :
    ebLoopE op cl (c :: rest) i cnt false =
      ebLoopE op cl rest (i + 1) cnt false := by
  show (if c = op then _ else _) = _
  rw [if_neg hco, if_neg hcc, if_neg hcb]

theorem ebLoopE_open (op cl : Char) (rest : List Char) (i : Nat) (cnt : Int) :
    ebLoopE op cl (op :: rest) i cnt false =
      ebLoopE op cl rest (i + 1) (cnt + 1) false := by
  show (if op = op then _ else _) = _
  rw [if_pos rfl]

theorem ebLoopE_close_cont (op cl : Char) (hoc : op ≠ cl) (rest : List Char)
    (i : Nat) (cnt : Int) (h : ¬ cnt - 1 = 0) :
    ebLoopE op cl (cl :: rest) i cnt false =
      ebLoopE op cl rest (i + 1) (cnt - 1) false := by
  have h1 : cl ≠ op := Ne.symm hoc
  show (if cl = op then _ else _) = _
  rw [if_neg h1, if_pos rfl, if_neg h]

theorem ebLoopE_close_done (op cl : Char) (hoc : op ≠ cl) (rest : List Char)
    (i : Nat) (cnt : Int) (h : cnt - 1 = 0) :
    ebLoopE op cl (cl :: rest) i cnt false = some i := by
  have h1 : cl ≠ op := Ne.symm hoc
  show (if cl = op then _ else _) = _
  rw [if_neg h1, if_pos rfl, if_pos h]

/-- Processing balanced content leaves the scanning loop's count unchanged
and moves the index past the content, for any count at least 1. -/
theorem ebLoopE_skip (op cl : Char) (hop : op ≠ '\\') (hcl : cl ≠ '\\')
    (hoc : op ≠ cl) {content : List Char} (hb : Bal op cl content) :
    ∀ (suffix : List Char) (i : Nat) (cnt : Int), 1 ≤ cnt →
      ebLoopE op cl (content ++ suffix) i cnt false =
        ebLoopE op cl suffix (i + content.length) cnt false := by
  induction hb with
  | nil => intro suffix i cnt _; simp
  | esc c rest _ ih =>
    intro suffix i cnt hcnt
    have hl : ('\\' :: c :: rest) ++ suffix = '\\' :: c :: (rest ++ suffix) :=
      rfl
    rw [hl, ebLoopE_esc2 op cl hop hcl c (rest ++ suffix) i cnt,
      ih suffix (i + 2) cnt hcnt]
    have : i + 2 + rest.length = i + ('\\' :: c :: rest).length := by
      simp only [List.length_cons]; omega
    rw [this]
  | chr c rest hco hcc hcb _ ih =>
    intro suffix i cnt hcnt
    have hl : (c :: rest) ++ suffix = c :: (rest ++ suffix) := rfl
    rw [hl, ebLoopE_chr op cl c hco hcc hcb (rest ++ suffix) i cnt,
      ih suffix (i + 1) cnt hcnt]
    have : i + 1 + rest.length = i + (c :: rest).length := by
      simp only [List.length_cons]; omega
    rw [this]
  | nest inner rest hbi hbr ihi ihr =>
    intro suffix i cnt hcnt
    have hl : (op :: (inner ++ cl :: rest)) ++ suffix =
        op :: (inner ++ (cl :: (rest ++ suffix))) := by simp
    rw [hl, ebLoopE_open op cl _ i cnt,
      ihi (cl :: (rest ++ suffix)) (i + 1) (cnt + 1) (by omega),
      ebLoopE_close_cont op cl hoc (rest ++ suffix) (i + 1 + inner.length)
        (cnt + 1) (by omega)]
    have hc : cnt + 1 - 1 = cnt := by omega
    rw [hc, ihr suffix (i + 1 + inner.length + 1) cnt hcnt]
    have : i + 1 + inner.length + 1 + rest.length =
        i + (op :: (inner ++ cl :: rest)).length := by
      simp only [List.length_cons, List.length_append]; omega
    rw [this]

theorem extract_braces_eq (pre content post : List Char)
    (hb : Bal '{' '}' content) :
    extract_balanced_braces (pre ++ '{' :: (content ++ '}' :: post))
        pre.length =
      (some content, pre.length + content.length + 2) := by
  have hdrop : (pre ++ '{' :: (content ++ '}' :: post)).drop pre.length =
      '{' :: (content ++ '}' :: post) := List.drop_left pre _
  have hloop : ebLoopE '{' '}' ('{' :: (content ++ '}' :: post)) pre.length 0
      false = some (pre.length + 1 + content.length) := by
    rw [ebLoopE_open '{' '}' _ pre.length 0,
      ebLoopE_skip '{' '}' (by decide) (by decide) (by decide) hb
        ('}' :: post) (pre.length + 1) (0 + 1) (by omega),
      ebLoopE_close_done '{' '}' (by decide) post (pre.length + 1 +
        content.length) (0 + 1) (by omega)]
  have hslice : pySlice (pre ++ '{' :: (content ++ '}' :: post))
      (pre.length + 1) (pre.length + 1 + content.length) = content := by
    unfold pySlice
    have hassoc : pre ++ '{' :: (content ++ '}' :: post) =
        (pre ++ ['{']) ++ (content ++ '}' :: post) := by simp
    have hlen : pre.length + 1 = (pre ++ ['{']).length := by simp
    rw [hassoc, hlen, List.drop_left]
    have : (pre ++ ['{']).length + content.length - (pre ++ ['{']).length =
        content.length := by omega
    rw [this]
    exact List.take_left content _
  unfold extract_balanced_braces
  rw [hdrop]
  simp only [List.head?_cons, if_pos rfl, hloop, hslice]
  have : pre.length + 1 + content.length + 1 =
      pre.length + content.length + 2 := by omega
  rw [this, if_pos trivial]

theorem extract_brackets_eq (pre content post : List Char)
    (hb : Bal '[' ']' content) :
    extract_balanced_brackets (pre ++ '[' :: (content ++ ']' :: post))
        pre.length =
      (some content, pre.length + content.length + 2) := by
  have hdrop : (pre ++ '[' :: (content ++ ']' :: post)).drop pre.length =
      '[' :: (content ++ ']' :: post) := List.drop_left pre _
  have hloop : ebLoopE '[' ']' ('[' :: (content ++ ']' :: post)) pre.length 0
      false = some (pre.length + 1 + content.length) := by
    rw [ebLoopE_open '[' ']' _ pre.length 0,
      ebLoopE_skip '[' ']' (by decide) (by decide) (by decide) hb
        (']' :: post) (pre.length + 1) (0 + 1) (by omega),
      ebLoopE_close_done '[' ']' (by decide) post (pre.length + 1 +
        content.length) (0 + 1) (by omega)]
  have hslice : pySlice (pre ++ '[' :: (content ++ ']' :: post))
      (pre.length + 1) (pre.length + 1 + content.length) = content := by
    unfold pySlice
    have hassoc : pre ++ '[' :: (content ++ ']' :: post) =
        (pre ++ ['[']) ++ (content ++ ']' :: post) := by simp
    have hlen : pre.length + 1 = (pre ++ ['[']).length := by simp
    rw [hassoc, hlen, List.drop_left]
    have : (pre ++ ['[']).length + content.length - (pre ++ ['[']).length =
        content.length := by omega
    rw [this]
    exact List.take_left content _
  unfold extract_balanced_brackets
  rw [hdrop]
  simp only [List.head?_cons, if_pos rfl, hloop, hslice]
  have : pre.length + 1 + content.length + 1 =
      pre.length + content.length + 2 := by omega
  rw [this, if_pos trivial]

theorem hasClose_mem (op cl : Char) {s : List Char} (h : HasClose op cl s) :
    cl ∈ s := by
  obtain ⟨c, r, rfl, -⟩ := h
  simp

/-- When the suffix s of the text contains no closing delimiter at
escape-aware depth 0, the scanning loop entered anywhere in s with a
positive count runs off the end of the text and signals not-found. -/
theorem ebLoopE_none (op cl : Char) (hop : op ≠ '\\') (hcl : cl ≠ '\\')
    (hoc : op ≠ cl) :
    ∀ (n : Nat) (s : List Char), s.length ≤ n → ¬ HasClose op cl s →
      ∀ (i : Nat) (cnt : Int), 1 ≤ cnt → ebLoopE op cl s i cnt false = none := by
  intro n
  induction n with
  | zero =>
    intro s hs _ i cnt _
    have hnil : s = [] := List.eq_nil_of_length_eq_zero (by omega)
    subst hnil; rfl
  | succ m ih =>
    intro s hs hnc i cnt hcnt
    rcases s with - | ⟨c, rest⟩
    · rfl
    · have hrest : rest.length ≤ m := by
        simp only [List.length_cons] at hs; omega
      by_cases hco : c = op
      · rw [hco] at hnc ⊢
        rw [ebLoopE_open op cl rest i cnt]
        by_cases hhc : HasClose op cl rest
        · obtain ⟨c1, r1, rfl, hb1⟩ := hhc
          rw [ebLoopE_skip op cl hop hcl hoc hb1 (cl :: r1) (i + 1) (cnt + 1)
              (by omega),
            ebLoopE_close_cont op cl hoc r1 _ (cnt + 1) (by omega)]
          have hnr : ¬ HasClose op cl r1 := by
            rintro ⟨c2, r2, hr2, hb2⟩
            apply hnc
            refine ⟨op :: (c1 ++ cl :: c2), r2, ?_, Bal.nest c1 c2 hb1 hb2⟩
            rw [hr2]; simp
          have hl1 : r1.length ≤ m := by
            simp only [List.length_append, List.length_cons] at hrest; omega
          have hcc : cnt + 1 - 1 = cnt := by omega
          rw [hcc]
          exact ih r1 hl1 hnr _ cnt hcnt
        · exact ih rest hrest hhc (i + 1) (cnt + 1) (by omega)
      · by_cases hcc : c = cl
        · exact absurd ⟨[], rest, by rw [hcc]; simp, Bal.nil⟩ hnc
        · by_cases hcb : c = '\\'
          · subst hcb
            rcases rest with - | ⟨d, rest2⟩
            · show (if ('\\' : Char) = op then _ else _) = none
              rw [if_neg (Ne.symm hop), if_neg (Ne.symm hcl), if_pos rfl]
              rfl
            · rw [ebLoopE_esc2 op cl hop hcl d rest2 i cnt]
              have hnr : ¬ HasClose op cl rest2 := by
                rintro ⟨c2, r2, hr2, hb2⟩
                apply hnc
                refine ⟨'\\' :: d :: c2, r2, ?_, Bal.esc d c2 hb2⟩
                rw [hr2]; rfl
              have hl2 : rest2.length ≤ m := by
                simp only [List.length_cons] at hs; omega
              exact ih rest2 hl2 hnr (i + 2) cnt hcnt
          · rw [ebLoopE_chr op cl c hco hcc hcb rest i cnt]
            have hnr : ¬ HasClose op cl rest := by
              rintro ⟨c2, r2, hr2, hb2⟩
              apply hnc
              refine ⟨c :: c2, r2, ?_, Bal.chr c c2 hco hcc hcb hb2⟩
              rw [hr2]; rfl
            exact ih rest hrest hnr (i + 1) cnt hcnt

/-- C1: for every text and every start position pointing at an opening
brace whose content is balanced under escape-aware counting, the scanner
returns exactly the substring strictly between the opening brace and its
matching closing brace, paired with the index immediately after that
closing brace; nesting of any depth (hence in particular up to 50) and
content spanning multiple lines are covered because balanced content is
arbitrary; likewise for extract_balanced_brackets. -/
theorem extract_balanced_returns_inner (pre content post : List Char) :
    (Bal '{' '}' content →
      extract_balanced_braces (pre ++ '{' :: (content ++ '}' :: post))
          pre.length =
        (some content, pre.length + content.length + 2)) ∧
    (Bal '[' ']' content →
      extract_balanced_brackets (pre ++ '[' :: (content ++ ']' :: post))
          pre.length =
        (some content, pre.length + content.length + 2)) :=
  ⟨fun hb => extract_braces_eq pre content post hb,
   fun hb => extract_brackets_eq pre content post hb⟩

/-- Witness for C1 at a concrete input: braces nested to depth 51 (a
newline followed by 50 nested brace pairs as content of the outermost
pair), extracted from position 0. -/
theorem extract_balanced_returns_inner_witness :
    extract_balanced_braces
        ([] ++ '{' :: (('\n' :: nestN '{' '}' 50) ++ '}' :: []))
        (List.length ([] : List Char)) =
      (some ('\n' :: nestN '{' '}' 50),
        List.length ([] : List Char) + ('\n' :: nestN '{' '}' 50).length + 2) :=
  (extract_balanced_returns_inner [] ('\n' :: nestN '{' '}' 50) []).1
    (Bal.chr '\n' _ (by decide) (by decide) (by decide) (bal_nestN '{' '}' 50))

/-- C2: if the start position does not point at the opening delimiter
(including positions at or past the end of the text, where the dropped
suffix is empty), or if the depth never returns to 0 before the end of the
text (no balanced decomposition of the suffix after the opening delimiter),
then each scanner returns the sentinel none paired with the unchanged start
position.  Both scanners are total Lean functions, so no input raises an
exception. -/
theorem extract_balanced_not_found (text : List Char) (p : Nat) :
    (((text.drop p).head? ≠ some '{' ∨
        ¬ HasClose '{' '}' (text.drop p).tail) →
      extract_balanced_braces text p = (none, p)) ∧
    (((text.drop p).head? ≠ some '[' ∨
        ¬ HasClose '[' ']' (text.drop p).tail) →
      extract_balanced_brackets text p = (none, p)) := by
  constructor
  · intro h
    by_cases hh : (text.drop p).head? = some '{'
    · have hnc : ¬ HasClose '{' '}' (text.drop p).tail := by
        rcases h with h | h
        · exact absurd hh h
        · exact h
      rcases hd : text.drop p with - | ⟨c, t⟩
      · rw [hd] at hh; simp at hh
      · rw [hd] at hh
        simp only [List.head?_cons, Option.some.injEq] at hh
        subst hh
        rw [hd] at hnc
        simp only [List.tail_cons] at hnc
        unfold extract_balanced_braces
        rw [hd]
        simp only [List.head?_cons, if_pos rfl]
        rw [ebLoopE_open '{' '}' t p 0,
          ebLoopE_none '{' '}' (by decide) (by decide) (by decide) t.length t
            le_rfl hnc (p + 1) (0 + 1) (by omega)]
        simp
    · unfold extract_balanced_braces
      rw [if_neg hh]
  · intro h
    by_cases hh : (text.drop p).head? = some '['
    · have hnc : ¬ HasClose '[' ']' (text.drop p).tail := by
        rcases h with h | h
        · exact absurd hh h
        · exact h
      rcases hd : text.drop p with - | ⟨c, t⟩
      · rw [hd] at hh; simp at hh
      · rw [hd] at hh
        simp only [List.head?_cons, Option.some.injEq] at hh
        subst hh
        rw [hd] at hnc
        simp only [List.tail_cons] at hnc
        unfold extract_balanced_brackets
        rw [hd]
        simp only [List.head?_cons, if_pos rfl]
        rw [ebLoopE_open '[' ']' t p 0,
          ebLoopE_none '[' ']' (by decide) (by decide) (by decide) t.length t
            le_rfl hnc (p + 1) (0 + 1) (by omega)]
        simp
    · unfold extract_balanced_brackets
      rw [if_neg hh]

/-- Witness for C2 at concrete inputs: a brace with no matching close
(content a b reaches the end of the text at depth 1), and for the bracket
scanner a start position past the end of the text. -/
theorem extract_balanced_not_found_witness :
    extract_balanced_braces ('{' :: 'a' :: 'b' :: []) 0 = (none, 0) ∧
    extract_balanced_brackets ('x' :: []) 5 = (none, 5) :=
  ⟨(extract_balanced_not_found ('{' :: 'a' :: 'b' :: []) 0).1
      (Or.inr (fun h => absurd (hasClose_mem '{' '}' h) (by decide))),
   (extract_balanced_not_found ('x' :: []) 5).2 (Or.inl (by decide))⟩

/-- C3: inside the scanning loops, a backslash makes the character
immediately after it — whatever it is — invisible to the depth accounting:
the loop resumes two positions further with the same count and state, for
both the brace and the bracket instantiation.  The concrete conjuncts show
escaped delimiters appearing in the returned content without affecting
where the scan closes. -/
theorem backslash_escapes_next (c : Char) (rest : List Char) (i : Nat)
    (cnt : Int) :
    ebLoopE '{' '}' ('\\' :: c :: rest) i cnt false =
      ebLoopE '{' '}' rest (i + 2) cnt false ∧
    ebLoopE '[' ']' ('\\' :: c :: rest) i cnt false =
      ebLoopE '[' ']' rest (i + 2) cnt false ∧
    extract_balanced_braces ('{' :: '\\' :: '{' :: '}' :: []) 0 =
      (some ('\\' :: '{' :: []), 4) ∧
    extract_balanced_braces ('{' :: '\\' :: '}' :: '}' :: []) 0 =
      (some ('\\' :: '}' :: []), 4) ∧
    extract_balanced_brackets ('[' :: '\\' :: ']' :: ']' :: []) 0 =
      (some ('\\' :: ']' :: []), 4) :=
  ⟨ebLoopE_esc2 '{' '}' (by decide) (by decide) c rest i cnt,
   ebLoopE_esc2 '[' ']' (by decide) (by decide) c rest i cnt,
   by decide, by decide, by decide⟩

theorem head?_dropWhile_false (p : Char → Bool) :
    ∀ (l : List Char) (c : Char), (l.dropWhile p).head? = some c → p c = false := by
  intro l
  induction l with
  | nil => intro c hc; simp at hc
  | cons x rest ih =>
    intro c hc
    by_cases hx : p x
    · rw [List.dropWhile_cons_of_pos hx] at hc
      exact ih c hc
    · rw [List.dropWhile_cons_of_neg hx] at hc
      simp only [List.head?_cons, Option.some.injEq] at hc
      subst hc
      exact Bool.eq_false_iff.mpr hx

theorem dropWhile_eq_self_of_head (p : Char → Bool) (l : List Char)
    (h : ∀ c, l.head? = some c → p c = false) : l.dropWhile p = l := by
  rcases l with - | ⟨x, rest⟩
  · rfl
  · have hx : p x = false := h x rfl
    exact List.dropWhile_cons_of_neg (by rw [hx]; simp)

theorem dropWhile_sfx (p : Char → Bool) (l : List Char) :
    l.dropWhile p <:+ l := by
  induction l with
  | nil => simp
  | cons x rest ih =>
    by_cases hx : p x
    · rw [List.dropWhile_cons_of_pos hx]
      exact ih.trans (List.suffix_cons x rest)
    · rw [List.dropWhile_cons_of_neg hx]

theorem stripChars_stripChars (l : List Char) :
    stripChars (stripChars l) = stripChars l := by
  unfold stripChars
  set a := l.dropWhile isSpace with ha
  set b := a.reverse.dropWhile isSpace with hb
  have hahead : ∀ c, a.head? = some c → isSpace c = false := fun c hc =>
    head?_dropWhile_false isSpace l c (by rw [ha] at hc; exact hc)
  have h1 : b.reverse.dropWhile isSpace = b.reverse := by
    apply dropWhile_eq_self_of_head
    intro c hc
    rw [List.head?_reverse] at hc
    rcases eq_or_ne b [] with hbn | hbn
    · rw [hbn] at hc; simp at hc
    · obtain ⟨t, ht⟩ := dropWhile_sfx isSpace a.reverse
      have hla : a.reverse.getLast? = some c := by
        rw [← ht, List.getLast?_append_of_ne_nil t hbn, hc]
      rw [List.getLast?_reverse] at hla
      exact hahead c hla
  rw [h1, List.reverse_reverse]
  have h2 : b.dropWhile isSpace = b := by
    apply dropWhile_eq_self_of_head
    intro c hc
    exact head?_dropWhile_false isSpace a.reverse c (by rw [hb] at hc; exact hc)
  rw [h2]

theorem specSegments_parts : ∀ (l cur : List Char) (pc : Int),
    (specSegments l cur pc).map stripChars = pkvParts l cur pc ∨
    (specSegments l cur pc).map stripChars = pkvParts l cur pc ++ [[]] := by
  intro l
  induction l with
  | nil =>
    intro cur pc
    by_cases h : stripChars cur = []
    · right; simp [specSegments, pkvParts, h]
    · left; simp [specSegments, pkvParts, h]
  | cons c rest ih =>
    intro cur pc
    by_cases h : c = ',' ∧ pc = 0
    · simp only [specSegments, pkvParts, if_pos h, List.map_cons]
      rcases ih [] pc with h2 | h2
      · left; rw [h2]
      · right; rw [h2]; rfl
    · simp only [specSegments, pkvParts, if_neg h]
      have hdelta : specDelta c = pkvDelta c := rfl
      rw [hdelta]
      exact ih (cur ++ [c]) (pc + pkvDelta c)

theorem pkvParts_stripped : ∀ (l cur : List Char) (pc : Int)
    (part : List Char), part ∈ pkvParts l cur pc → stripChars part = part := by
  intro l
  induction l with
  | nil =>
    intro cur pc part hp
    unfold pkvParts at hp
    by_cases h : stripChars cur = []
    · rw [if_pos h] at hp; simp at hp
    · rw [if_neg h] at hp
      simp only [List.mem_singleton] at hp
      subst hp
      exact stripChars_stripChars cur
  | cons c rest ih =>
    intro cur pc part hp
    unfold pkvParts at hp
    by_cases h : c = ',' ∧ pc = 0
    · rw [if_pos h] at hp
      rcases List.mem_cons.mp hp with h2 | h2
      · subst h2; exact stripChars_stripChars cur
      · exact ih [] pc part h2
    · rw [if_neg h] at hp
      exact ih (cur ++ [c]) (pc + pkvDelta c) part hp

theorem specStep_eq_pkvStep (m : List (List Char × PyVal)) (part : List Char)
    (h : stripChars part = part) : specStep m part = pkvStep m part := by
  unfold specStep pkvStep
  rw [h]

theorem foldl_specStep_eq :
    ∀ (parts : List (List Char)), (∀ p ∈ parts, stripChars p = p) →
      ∀ m, parts.foldl specStep m = parts.foldl pkvStep m := by
  intro parts
  induction parts with
  | nil => intro _ m; rfl
  | cons p rest ih =>
    intro h m
    simp only [List.foldl_cons]
    rw [specStep_eq_pkvStep m p (h p (List.mem_cons_self p rest))]
    exact ih (fun q hq => h q (List.mem_cons_of_mem p hq)) (pkvStep m p)

theorem foldl_specStep_append_nil (parts : List (List Char))
    (m : List (List Char × PyVal)) :
    (parts ++ [[]]).foldl specStep m = parts.foldl specStep m := by
  rw [List.foldl_append]
  show specStep (parts.foldl specStep m) [] = _
  unfold specStep
  simp [stripChars]

/-- C4: parse_key_value_pairs agrees with the reference definition written
from the claim's words on every input: split on commas only at nesting
depth 0 under a single shared counter over all three bracket kinds, trim
each top-level segment, split a segment carrying an equals sign at its
first equals sign into trimmed key and trimmed value, turn a non-empty
segment without an equals sign into a boolean flag, and give the empty
mapping on empty or whitespace-only content. -/
theorem parse_key_value_pairs_matches_reference (content : List Char) :
    parse_key_value_pairs content = parse_key_value_pairs_spec content := by
  by_cases hc : content = []
  · subst hc; decide
  · unfold parse_key_value_pairs parse_key_value_pairs_spec
    rw [if_neg hc]
    have hstr := pkvParts_stripped content [] 0
    rcases specSegments_parts content [] 0 with h | h
    · rw [h, foldl_specStep_eq _ hstr []]
    · rw [h, foldl_specStep_append_nil, foldl_specStep_eq _ hstr []]

theorem dLookup_map_other {α : Type} (k n : List Char) (v : α) (hkn : k ≠ n) :
    ∀ d : List (List Char × α),
      dLookup k (d.map (fun p => if p.1 = n then (n, v) else p)) =
        dLookup k d := by
  intro d
  induction d with
  | nil => rfl
  | cons p rest ih =>
    simp only [List.map_cons]
    by_cases hp : p.1 = n
    · rw [if_pos hp]
      unfold dLookup
      rw [List.find?_cons_of_neg _ (by simp [Ne.symm hkn]),
        List.find?_cons_of_neg _ (by rw [hp]; simp [Ne.symm hkn])]
      exact ih
    · rw [if_neg hp]
      by_cases hpk : p.1 = k
      · unfold dLookup
        rw [List.find?_cons_of_pos _ (by simp [hpk]),
          List.find?_cons_of_pos _ (by simp [hpk])]
      · unfold dLookup
        rw [List.find?_cons_of_neg _ (by simp [hpk]),
          List.find?_cons_of_neg _ (by simp [hpk])]
        exact ih

theorem dLookup_map_overwrite {α : Type} (n : List Char) (v : α) :
    ∀ d : List (List Char × α), d.any (fun q => q.1 == n) = true →
      dLookup n (d.map (fun p => if p.1 = n then (n, v) else p)) = some v := by
  intro d
  induction d with
  | nil => intro h; simp at h
  | cons p rest ih =>
    intro h
    simp only [List.map_cons]
    by_cases hp : p.1 = n
    · rw [if_pos hp]
      unfold dLookup
      rw [List.find?_cons_of_pos _ (by simp)]
      rfl
    · rw [if_neg hp]
      unfold dLookup
      rw [List.find?_cons_of_neg _ (by simp [hp])]
      have hr : rest.any (fun q => q.1 == n) = true := by
        simp only [List.any_cons] at h
        cases hb : (p.1 == n) with
        | true => exact absurd (eq_of_beq hb) hp
        | false => rw [hb] at h; rw [Bool.false_or] at h; exact h
      exact ih hr

/-- Lookup after a Python dict assignment: the assigned key reads back the
assigned value; every other key is unaffected. -/
theorem dLookup_dInsert {α : Type} (k n : List Char) (v : α)
    (d : List (List Char × α)) :
    dLookup k (dInsert d n v) = if k = n then some v else dLookup k d := by
  unfold dInsert
  by_cases hany : d.any (fun p => p.1 == n) = true
  · rw [if_pos hany]
    by_cases hk : k = n
    · rw [if_pos hk]; subst hk; exact dLookup_map_overwrite k v d hany
    · rw [if_neg hk]; exact dLookup_map_other k n v hk d
  · rw [if_neg hany]
    have hfalse : d.any (fun p => p.1 == n) = false := by
      cases hb : d.any (fun p => p.1 == n) with
      | true => exact absurd hb hany
      | false => rfl
    have hnone : d.find? (fun p => p.1 == n) = none :=
      List.find?_eq_none.mpr (List.any_eq_false.mp hfalse)
    by_cases hk : k = n
    · rw [if_pos hk]; subst hk
      unfold dLookup
      rw [List.find?_append, hnone]
      simp [List.find?_cons_of_pos]
    · rw [if_neg hk]
      unfold dLookup
      rw [List.find?_append]
      have h2 : List.find? (fun p => p.1 == k) [(n, v)] = none := by
        simp [Ne.symm hk]
      rw [h2]
      simp

theorem simple_fold_not_mem (text : List Char) :
    ∀ (names : List (List Char)) (k : List Char), k ∉ names →
      ∀ d, dLookup k (names.foldl (simpleStep text) d) = dLookup k d := by
  intro names
  induction names with
  | nil => intro k _ d; rfl
  | cons n rest ih =>
    intro k hk d
    have hkn : k ≠ n := fun h => hk (h ▸ List.mem_cons_self n rest)
    simp only [List.foldl_cons]
    rw [ih k (fun h => hk (List.mem_cons_of_mem n h)) _]
    unfold simpleStep
    rcases hf : findallSimple n text with - | ⟨m, ms⟩
    · rfl
    · rcases ms with - | ⟨m2, ms2⟩
      · rw [dLookup_dInsert, if_neg hkn]
      · rw [dLookup_dInsert, if_neg hkn]

theorem simple_fold_mem (text : List Char) :
    ∀ (names : List (List Char)), names.Nodup →
      ∀ k, k ∈ names → ∀ d, dLookup k d = none →
        dLookup k (names.foldl (simpleStep text) d) =
          match findallSimple k text with
          | [] => none
          | [m] => some (SimpleVal.one (stripChars m))
          | ms => some (SimpleVal.many (ms.map stripChars)) := by
  intro names
  induction names with
  | nil => intro _ k hk; simp at hk
  | cons n rest ih =>
    intro hnd k hk d hd
    simp only [List.foldl_cons]
    rcases List.mem_cons.mp hk with h | h
    · subst h
      have hnotin : k ∉ rest := (List.nodup_cons.mp hnd).1
      rw [simple_fold_not_mem text rest k hnotin]
      unfold simpleStep
      rcases hf : findallSimple k text with - | ⟨m, ms⟩
      · exact hd
      · rcases ms with - | ⟨m2, ms2⟩
        · rw [dLookup_dInsert, if_pos rfl]
        · rw [dLookup_dInsert, if_pos rfl]
    · have hkn : k ≠ n := by
        intro he; subst he; exact (List.nodup_cons.mp hnd).1 h
      apply ih (List.nodup_cons.mp hnd).2 k h
      unfold simpleStep
      rcases hf : findallSimple n text with - | ⟨m, ms⟩
      · exact hd
      · rcases ms with - | ⟨m2, ms2⟩
        · rw [dLookup_dInsert, if_neg hkn]; exact hd
        · rw [dLookup_dInsert, if_neg hkn]; exact hd

/-- C5: for every macro name in the default set and every input text,
extract_simple_macros omits the name entirely when the scan finds no
occurrence, binds it to the single trimmed capture when there is exactly
one occurrence, and binds it to the ordered list of trimmed captures (in
document order, the order of the scan) when there are two or more. -/
theorem extract_simple_macros_multiplicity (name : List Char)
    (hname : name ∈ defaultMacroNames) (text : List Char) :
    (findallSimple name text = [] →
      dLookup name (extract_simple_macros text none) = none) ∧
    (∀ m, findallSimple name text = [m] →
      dLookup name (extract_simple_macros text none) =
        some (SimpleVal.one (stripChars m))) ∧
    (∀ m1 m2 ms, findallSimple name text = m1 :: m2 :: ms →
      dLookup name (extract_simple_macros text none) =
        some (SimpleVal.many
          (stripChars m1 :: stripChars m2 :: ms.map stripChars))) := by
  have hmain := simple_fold_mem text defaultMacroNames (by decide) name hname
    [] rfl
  refine ⟨fun h => ?_, fun m h => ?_, fun m1 m2 ms h => ?_⟩ <;>
    rw [h] at hmain <;> simpa using hmain

/-- Witness for C5 at the claim's concrete example: two keywords macros in
one text give the ordered two-element list. -/
theorem extract_simple_macros_multiplicity_witness :
    dLookup ("keywords".toList)
        (extract_simple_macros
          ("\\keywords".toList ++ '{' :: "NLP".toList ++ '}' :: ' ' ::
            "\\keywords".toList ++ '{' :: "corpora".toList ++ '}' :: [])
          none) =
      some (SimpleVal.many
        [stripChars "NLP".toList, stripChars "corpora".toList]) :=
  (extract_simple_macros_multiplicity "keywords".toList (by decide) _).2.2
    "NLP".toList "corpora".toList [] (by decide)

theorem reContentGo_close_mem :
    ∀ (s : List Char) (st : Bool) (acc cap rest : List Char),
      reContentGo s st acc = some (cap, rest) → '}' ∈ s := by
  intro s
  induction s with
  | nil => intro st acc cap rest h; cases st <;> simp [reContentGo] at h
  | cons c t ih =>
    intro st acc cap rest h
    by_cases hc : c = '}'
    · rw [hc]; exact List.mem_cons_self '}' t
    · apply List.mem_cons_of_mem
      cases st with
      | false =>
        rw [show reContentGo (c :: t) false acc =
            (if c = '}' then some (acc.reverse, t)
             else if c = '{' then reContentGo t true (c :: acc)
             else reContentGo t false (c :: acc)) from rfl, if_neg hc] at h
        by_cases hb : c = '{'
        · rw [if_pos hb] at h; exact ih true (c :: acc) cap rest h
        · rw [if_neg hb] at h; exact ih false (c :: acc) cap rest h
      | true =>
        rw [show reContentGo (c :: t) true acc =
            (if c = '}' then reContentGo t false (c :: acc)
             else if c = '{' then none
             else reContentGo t true (c :: acc)) from rfl, if_neg hc] at h
        by_cases hb : c = '{'
        · rw [if_pos hb] at h; exact absurd h (by simp)
        · rw [if_neg hb] at h; exact ih true (c :: acc) cap rest h

theorem dropLit_sfx : ∀ (lit s s1 : List Char), dropLit lit s = some s1 →
    s1 <:+ s := by
  intro lit
  induction lit with
  | nil =>
    intro s s1 h
    simp only [dropLit, Option.some.injEq] at h
    subst h
    exact List.suffix_refl s
  | cons c cs ih =>
    intro s s1 h
    rcases s with - | ⟨x, xs⟩
    · simp [dropLit] at h
    · unfold dropLit at h
      by_cases hx : x = c
      · rw [if_pos hx] at h
        exact (ih xs s1 h).trans (List.suffix_cons x xs)
      · rw [if_neg hx] at h; exact absurd h (by simp)

theorem matchSimple_close_mem (name s cap rest : List Char)
    (h : matchSimple name s = some (cap, rest)) : '}' ∈ s := by
  unfold matchSimple at h
  rcases hd : dropLit ('\\' :: name) s with - | s1
  · rw [hd] at h; exact absurd h (by simp)
  · rw [hd] at h
    have h' : (match List.dropWhile isSpace s1 with
        | [] => none
        | c :: s2 => if c = '{' then reContent s2 else none) =
        some (cap, rest) := h
    clear h
    rcases hw : s1.dropWhile isSpace with - | ⟨c, s2⟩
    · rw [hw] at h'; exact absurd h' (by simp)
    · rw [hw] at h'
      have h2' : (if c = '{' then reContent s2 else none) =
          some (cap, rest) := h'
      clear h'
      by_cases hc : c = '{'
      · rw [if_pos hc] at h2'
        have h2 : '}' ∈ s2 := reContentGo_close_mem s2 false [] cap rest h2'
        have h3 : '}' ∈ s1 := by
          have hsub : (c :: s2) ⊆ s1 := by
            rw [← hw]; exact (dropWhile_sfx isSpace s1).subset
          exact hsub (List.mem_cons_of_mem c h2)
        exact (dropLit_sfx ('\\' :: name) s s1 hd).subset h3
      · rw [if_neg hc] at h2'; exact absurd h2' (by simp)

theorem scanGo_simple_nil (name : List Char) :
    ∀ (fuel : Nat) (s : List Char), '}' ∉ s →
      scanGo (matchSimple name) fuel s = [] := by
  intro fuel
  induction fuel with
  | zero => intro s _; rfl
  | succ m ih =>
    intro s hs
    rcases hm : matchSimple name s with - | ⟨cap, after⟩
    · rcases s with - | ⟨c, rest⟩
      · rfl
      · simp only [scanGo, hm, Option.elim]
        exact ih rest (fun hr => hs (List.mem_cons_of_mem c hr))
    · exact absurd (matchSimple_close_mem name s cap after hm) hs

/-- C6: in a text with no closing brace at all — in particular the claim's
input backslash-title-open-brace-Hello — the title macro cannot match, so
title is absent from the simple-macro mapping (no error, no partial string
such as Hello), and the metadata record of extract_all_metadata carries
title none. -/
theorem unterminated_macro_absent (text : List Char) (h : '}' ∉ text) :
    dLookup "title".toList (extract_simple_macros text none) = none ∧
    (extract_all_metadata text).title = none := by
  have hnil : findallSimple "title".toList text = [] :=
    scanGo_simple_nil "title".toList text.length text h
  have h1 : dLookup "title".toList (extract_simple_macros text none) = none := by
    have hm := simple_fold_mem text defaultMacroNames (by decide)
      "title".toList (by decide) [] rfl
    rw [hnil] at hm
    simpa using hm
  exact ⟨h1, h1⟩

/-- Witness for C6 at the claim's concrete input: the title macro opened
but never closed. -/
theorem unterminated_macro_absent_witness :
    '}' ∉ ("\\title".toList ++ '{' :: "Hello".toList) ∧
    dLookup "title".toList
        (extract_simple_macros ("\\title".toList ++ '{' :: "Hello".toList)
          none) = none ∧
    (extract_all_metadata
        ("\\title".toList ++ '{' :: "Hello".toList)).title = none :=
  ⟨by decide, unterminated_macro_absent _ (by decide)⟩

theorem dropLit_append (lit rest : List Char) :
    dropLit lit (lit ++ rest) = some rest := by
  induction lit with
  | nil => rfl
  | cons c cs ih => simp [dropLit, ih]

theorem dropLit_length : ∀ (lit s s1 : List Char),
    dropLit lit s = some s1 → s1.length + lit.length = s.length := by
  intro lit
  induction lit with
  | nil =>
    intro s s1 h
    simp only [dropLit, Option.some.injEq] at h
    subst h; simp
  | cons c cs ih =>
    intro s s1 h
    rcases s with - | ⟨x, xs⟩
    · simp [dropLit] at h
    · unfold dropLit at h
      by_cases hx : x = c
      · rw [if_pos hx] at h
        have := ih xs s1 h
        simp only [List.length_cons]
        omega
      · rw [if_neg hx] at h; exact absurd h (by simp)

theorem takeWhile_all_append (p : Char → Bool) :
    ∀ (l : List Char) (x : Char) (t : List Char),
      (∀ c ∈ l, p c = true) → p x = false →
      (l ++ x :: t).takeWhile p = l ∧ (l ++ x :: t).dropWhile p = x :: t := by
  intro l
  induction l with
  | nil =>
    intro x t _ hx
    constructor
    · simp [List.takeWhile_cons, hx]
    · simp [List.dropWhile_cons, hx]
  | cons c cs ih =>
    intro x t hl hx
    have hc : p c = true := hl c (List.mem_cons_self c cs)
    obtain ⟨ih1, ih2⟩ := ih x t (fun d hd => hl d (List.mem_cons_of_mem c hd)) hx
    constructor
    · simp only [List.cons_append, List.takeWhile_cons, hc, if_true, ih1]
    · simp only [List.cons_append, List.dropWhile_cons, hc, if_true, ih2]

theorem dropWhile_append_all (p : Char → Bool) :
    ∀ (l t : List Char), (∀ c ∈ l, p c = true) →
      (l ++ t).dropWhile p = t.dropWhile p := by
  intro l
  induction l with
  | nil => intro t _; rfl
  | cons c cs ih =>
    intro t hl
    have hc : p c = true := hl c (List.mem_cons_self c cs)
    simp only [List.cons_append, List.dropWhile_cons, hc, if_true]
    exact ih t (fun d hd => hl d (List.mem_cons_of_mem c hd))

theorem reContentGo_arg1 :
    ∀ (name : List Char) (st : Bool) (acc t : List Char),
      arg1 name st = true →
      reContentGo (name ++ '}' :: t) st acc = some (acc.reverse ++ name, t) := by
  intro name
  induction name with
  | nil =>
    intro st acc t h
    have hst : st = false := by
      cases st
      · rfl
      · simp [arg1] at h
    subst hst
    simp [reContentGo]
  | cons c rest ih =>
    intro st acc t h
    cases st with
    | false =>
      simp only [arg1] at h
      by_cases hc : c = '}'
      · rw [if_pos hc] at h; simp at h
      · rw [if_neg hc] at h
        by_cases hb : c = '{'
        · rw [if_pos hb] at h
          simp only [List.cons_append, reContentGo, if_neg hc, if_pos hb,
            List.append_eq]
          rw [ih true (c :: acc) t h]
          simp
        · rw [if_neg hb] at h
          simp only [List.cons_append, reContentGo, if_neg hc, if_neg hb,
            List.append_eq]
          rw [ih false (c :: acc) t h]
          simp
    | true =>
      simp only [arg1] at h
      by_cases hb : c = '{'
      · rw [if_pos hb] at h; simp at h
      · rw [if_neg hb] at h
        by_cases hc : c = '}'
        · rw [if_pos hc] at h
          simp only [List.cons_append, reContentGo, if_pos hc, List.append_eq]
          rw [ih false (c :: acc) t h]
          simp
        · rw [if_neg hc] at h
          simp only [List.cons_append, reContentGo, if_neg hc, if_neg hb,
            List.append_eq]
          rw [ih true (c :: acc) t h]
          simp

theorem reContentGo_length :
    ∀ (s : List Char) (st : Bool) (acc cap rest : List Char),
      reContentGo s st acc = some (cap, rest) → rest.length < s.length := by
  intro s
  induction s with
  | nil => intro st acc cap rest h; cases st <;> simp [reContentGo] at h
  | cons c t ih =>
    intro st acc cap rest h
    simp only [List.length_cons]
    cases st with
    | false =>
      simp only [reContentGo] at h
      by_cases hc : c = '}'
      · rw [if_pos hc] at h
        simp only [Option.some.injEq, Prod.mk.injEq] at h
        rw [← h.2]
        omega
      · rw [if_neg hc] at h
        by_cases hb : c = '{'
        · rw [if_pos hb] at h
          have := ih true (c :: acc) cap rest h
          omega
        · rw [if_neg hb] at h
          have := ih false (c :: acc) cap rest h
          omega
    | true =>
      simp only [reContentGo] at h
      by_cases hc : c = '}'
      · rw [if_pos hc] at h
        have := ih false (c :: acc) cap rest h
        omega
      · rw [if_neg hc] at h
        by_cases hb : c = '{'
        · rw [if_pos hb] at h; simp at h
        · rw [if_neg hb] at h
          have := ih true (c :: acc) cap rest h
          omega

theorem dropWhile_length_le (p : Char → Bool) (l : List Char) :
    (l.dropWhile p).length ≤ l.length :=
  (dropWhile_sfx p l).length_le

theorem matchAuthorBody_length (g1 : Option (List Char)) (t : List Char)
    (a : Author) (after : List Char)
    (h : matchAuthorBody g1 t = some (a, after)) : after.length < t.length := by
  unfold matchAuthorBody at h
  rcases hw : t.dropWhile isSpace with - | ⟨c, s4⟩
  · rw [hw] at h; exact absurd h (by simp)
  · rw [hw] at h
    have h2 : (if c = '{' then
        match reContent s4 with
        | some (g2, a2) => some (buildAuthor g1 g2 a2, a2)
        | none => none
      else none) = some (a, after) := h
    clear h
    by_cases hc : c = '{'
    · rw [if_pos hc] at h2
      rcases hr : reContent s4 with - | ⟨g2, after2⟩
      · rw [hr] at h2; exact absurd h2 (by simp)
      · rw [hr] at h2
        simp only [Option.some.injEq, Prod.mk.injEq] at h2
        have h1 : after2.length < s4.length :=
          reContentGo_length s4 false [] g2 after2 hr
        have h3 : (c :: s4).length ≤ t.length := by
          rw [← hw]; exact dropWhile_length_le isSpace t
        simp only [List.length_cons] at h3
        rw [← h2.2]
        omega
    · rw [if_neg hc] at h2; exact absurd h2 (by simp)

theorem matchAuthor_length (s : List Char) (a : Author) (after : List Char)
    (h : matchAuthor s = some (a, after)) : after.length < s.length := by
  unfold matchAuthor at h
  rcases hd : dropLit authorLit s with - | s1
  · rw [hd] at h; exact absurd h (by simp)
  · rw [hd] at h
    have hlen1 : s1.length + authorLit.length = s.length :=
      dropLit_length authorLit s s1 hd
    rcases s1 with - | ⟨c, s2⟩
    · exact absurd h (by simp)
    · simp only at h
      by_cases hc : c = '['
      · rw [if_pos hc] at h
        rcases hq : s2.dropWhile (fun x => ¬ x = ']') with - | ⟨q, s3⟩
        · rw [hq] at h; exact absurd h (by simp)
        · rw [hq] at h
          have hb := matchAuthorBody_length _ s3 a after h
          have h3 : (q :: s3).length ≤ s2.length := by
            rw [← hq]; exact dropWhile_length_le _ s2
          simp only [List.length_cons] at h3 hlen1 ⊢
          omega
      · rw [if_neg hc] at h
        have hb := matchAuthorBody_length none (c :: s2) a after h
        simp only [List.length_cons] at hb hlen1
        omega

theorem scanGo_fuel {α : Type} (f : List Char → Option (α × List Char))
    (hf : ∀ s a after, f s = some (a, after) → after.length < s.length) :
    ∀ (n fuel fuel' : Nat) (s : List Char), s.length ≤ n →
      s.length ≤ fuel → s.length ≤ fuel' →
      scanGo f fuel s = scanGo f fuel' s := by
  have hnil : f [] = none := by
    cases hn : f [] with
    | none => rfl
    | some p =>
      obtain ⟨a, after⟩ := p
      exact absurd (hf [] a after hn) (by simp)
  intro n
  induction n with
  | zero =>
    intro fuel fuel' s hs h1 h2
    have hsnil : s = [] := List.eq_nil_of_length_eq_zero (by omega)
    subst hsnil
    cases fuel <;> cases fuel' <;> simp [scanGo, hnil]
  | succ m ih =>
    intro fuel fuel' s hs h1 h2
    rcases s with - | ⟨c, rest⟩
    · cases fuel <;> cases fuel' <;> simp [scanGo, hnil]
    · rcases fuel with - | fm
      · simp at h1
      · rcases fuel' with - | fm'
        · simp at h2
        · simp only [scanGo]
          cases hm : f (c :: rest) with
          | none =>
            simp only [Option.elim]
            simp only [List.length_cons] at hs h1 h2
            exact ih fm fm' rest (by omega) (by omega) (by omega)
          | some p =>
            simp only [Option.elim]
            obtain ⟨a, after⟩ := p
            have hlt := hf (c :: rest) a after hm
            simp only [List.length_cons] at hs h1 h2 hlt
            have he : scanGo f fm after = scanGo f fm' after :=
              ih fm fm' after (by omega) (by omega) (by omega)
            rw [he]

theorem scan_cons_match {α : Type} (f : List Char → Option (α × List Char))
    (hf : ∀ s a after, f s = some (a, after) → after.length < s.length)
    (s : List Char) (a : α) (after : List Char) (h : f s = some (a, after)) :
    scan f s = a :: scan f after := by
  unfold scan
  rcases s with - | ⟨c, rest⟩
  · exact absurd (hf [] a after h) (by simp)
  · simp only [List.length_cons, scanGo, h, Option.elim]
    have hlt := hf (c :: rest) a after h
    simp only [List.length_cons] at hlt
    rw [scanGo_fuel f hf after.length rest.length after.length after le_rfl
      (by omega) le_rfl]

theorem scan_cons_nomatch {α : Type} (f : List Char → Option (α × List Char))
    (c : Char) (rest : List Char) (h : f (c :: rest) = none) :
    scan f (c :: rest) = scan f rest := by
  unfold scan
  simp only [List.length_cons, scanGo, h, Option.elim]

theorem matchAuthorBody_braced (g1 : Option (List Char))
    (name after : List Char) (h2 : arg1 name false = true) :
    matchAuthorBody g1 ('{' :: (name ++ '}' :: after)) =
      some (buildAuthor g1 name after, after) := by
  unfold matchAuthorBody
  rw [List.dropWhile_cons_of_neg (by decide)]
  have hre : reContent (name ++ '}' :: after) = some (name, after) := by
    unfold reContent
    rw [reContentGo_arg1 name false [] after h2]
    simp
  simp only [if_pos rfl, hre]
  rw [if_pos trivial]

theorem matchAuthor_bracketed (nums name after : List Char)
    (h1 : ']' ∉ nums) (h2 : arg1 name false = true) :
    matchAuthor (authorLit ++ '[' ::
        (nums ++ ']' :: ('{' :: (name ++ '}' :: after)))) =
      some (buildAuthor (some nums) name after, after) := by
  unfold matchAuthor
  rw [dropLit_append]
  have hp : ∀ c ∈ nums, (fun x => decide (¬ x = ']')) c = true := by
    intro c hc
    simp only [decide_eq_true_eq]
    exact fun he => h1 (he ▸ hc)
  obtain ⟨htw, hdw⟩ := takeWhile_all_append (fun x => decide (¬ x = ']'))
    nums ']' ('{' :: (name ++ '}' :: after)) hp (by decide)
  simp only [if_pos rfl, htw, hdw]
  exact matchAuthorBody_braced (some nums) name after h2

theorem matchAuthor_bare (name after : List Char)
    (h2 : arg1 name false = true)
    (hne : ('{' : Char) = '[' → False) :
    matchAuthor (authorLit ++ '{' :: (name ++ '}' :: after)) =
      some (buildAuthor none name after, after) := by
  unfold matchAuthor
  rw [dropLit_append]
  simp only [if_neg hne]
  exact matchAuthorBody_braced none name after h2

/-- C7: an author macro yields exactly one Author record, followed by
whatever records the scan of the remaining text yields (so every author
macro contributes one record, in document order).  With a bracket group
and a following metadata block, the record carries the trimmed name, the
comma-split trimmed affiliation numbers, and the key/value parse of the
balanced bracket block that follows the closing brace of the name after
optional whitespace, as in the claim's example; without the optional
bracket group and with no bracket after the name, the affiliation-number
sequence and the metadata mapping are empty. -/
theorem author_macro_records :
    (∀ (nums name ws kv rest : List Char), ']' ∉ nums →
        arg1 name false = true → ¬ stripChars nums = [] →
        (∀ c ∈ ws, isSpace c = true) → Bal '[' ']' kv →
        extract_author_macros (authorLit ++ '[' ::
            (nums ++ ']' :: ('{' :: (name ++ '}' ::
              (ws ++ '[' :: (kv ++ ']' :: rest)))))) =
          { name := stripChars name,
            affiliation_numbers :=
              (commaSplit (stripChars nums)).map stripChars,
            metadata := parse_key_value_pairs kv } ::
            extract_author_macros (ws ++ '[' :: (kv ++ ']' :: rest))) ∧
    (∀ (name rest : List Char), arg1 name false = true →
        (rest.dropWhile isSpace).head? ≠ some '[' →
        extract_author_macros (authorLit ++ '{' :: (name ++ '}' :: rest)) =
          { name := stripChars name, affiliation_numbers := [],
            metadata := [] } :: extract_author_macros rest) := by
  constructor
  · intro nums name ws kv rest h1 h2 h3 hws hkv
    have hm := matchAuthor_bracketed nums name
      (ws ++ '[' :: (kv ++ ']' :: rest)) h1 h2
    unfold extract_author_macros
    rw [scan_cons_match matchAuthor matchAuthor_length _ _ _ hm]
    congr 1
    unfold buildAuthor
    have haff : authorAffNums (some nums) =
        (commaSplit (stripChars nums)).map stripChars := by
      show (if nums = [] then [] else if stripChars nums = [] then []
        else (commaSplit (stripChars nums)).map stripChars) =
        (commaSplit (stripChars nums)).map stripChars
      rw [if_neg (fun he => h3 (by rw [he]; rfl)), if_neg h3]
    have hmd : authorMetadata (ws ++ '[' :: (kv ++ ']' :: rest)) =
        parse_key_value_pairs kv := by
      unfold authorMetadata
      have hdw : (ws ++ '[' :: (kv ++ ']' :: rest)).dropWhile isSpace =
          '[' :: (kv ++ ']' :: rest) := by
        rw [dropWhile_append_all isSpace ws _ hws,
          List.dropWhile_cons_of_neg (by decide)]
      rw [hdw, if_pos (by simp)]
      have hx : extract_balanced_brackets ('[' :: (kv ++ ']' :: rest)) 0 =
          (some kv, kv.length + 2) := by
        have := extract_brackets_eq [] kv rest hkv
        simpa using this
      rw [hx]
      by_cases hkv0 : kv = []
      · subst hkv0; rfl
      · simp only [if_neg hkv0]
    rw [haff, hmd]
  · intro name rest h2 hh
    have hm := matchAuthor_bare name rest h2 (by decide)
    unfold extract_author_macros
    rw [scan_cons_match matchAuthor matchAuthor_length _ _ _ hm]
    congr 1
    unfold buildAuthor
    have hmd : authorMetadata rest = [] := by
      unfold authorMetadata
      rw [if_neg hh]
    rw [hmd]
    rfl

/-- Witness for C7 at the claim's concrete example author macro. -/
theorem author_macro_records_witness :
    extract_author_macros (authorLit ++ '[' ::
        ("1,2".toList ++ ']' :: ('{' :: ("Jane Doe".toList ++ '}' ::
          ([] ++ '[' :: ("orcid=0000-0001-2345-6789".toList ++
            ']' :: [])))))) =
      { name := stripChars "Jane Doe".toList,
        affiliation_numbers :=
          (commaSplit (stripChars "1,2".toList)).map stripChars,
        metadata :=
          parse_key_value_pairs "orcid=0000-0001-2345-6789".toList } ::
        extract_author_macros ([] ++ '[' ::
          ("orcid=0000-0001-2345-6789".toList ++ ']' :: [])) :=
  author_macro_records.1 "1,2".toList "Jane Doe".toList []
    "orcid=0000-0001-2345-6789".toList [] (by decide) (by decide)
    (by decide) (by decide)
    (bal_of_no_delims '[' ']' (by decide))

theorem foldl_resolve_filterMap (lookup : List (List Char × List Char)) :
    ∀ (tokens : List (List Char)) (acc : List (List Char × List Char)),
      tokens.foldl (fun acc aff_num =>
        match dLookup aff_num lookup with
        | some t => acc ++ [(aff_num, t)]
        | none => acc) acc =
      acc ++ tokens.filterMap (fun t =>
        (dLookup t lookup).map (fun txt => (t, txt))) := by
  intro tokens
  induction tokens with
  | nil => intro acc; simp
  | cons t ts ih =>
    intro acc
    simp only [List.foldl_cons, List.filterMap_cons]
    cases hl : dLookup t lookup with
    | none =>
      rw [ih]
      simp only [hl, Option.map_none']
    | some txt =>
      rw [ih]
      simp only [hl, Option.map_some']
      simp

theorem dLookup_buildAffLookup (affs : List Affiliation) (t : List Char) :
    dLookup t (buildAffLookup affs) = lastAffText affs t := by
  induction affs using List.reverseRecOn with
  | nil => rfl
  | append_singleton as a ih =>
    unfold buildAffLookup at ih ⊢
    rw [List.foldl_append]
    simp only [List.foldl_cons, List.foldl_nil]
    rw [dLookup_dInsert]
    unfold lastAffText
    rw [List.reverse_append]
    simp only [List.reverse_cons, List.reverse_nil, List.nil_append,
      List.cons_append, List.find?_cons]
    by_cases hk : t = a.number
    · rw [if_pos hk]
      have : (a.number == t) = true := by simp [hk]
      rw [this]
      rw [hk]
      rfl
    · rw [if_neg hk]
      have : (a.number == t) = false := by simp [Ne.symm hk]
      rw [this]
      exact ih

/-- C8: format_authors_with_affiliations resolves each author's
affiliation-number tokens in token order through the lookup, keeping the
matching ones as number/text pairs and silently dropping — no error, no
placeholder — every token for which no Affiliation has an exactly
string-equal number; the lookup misses a token exactly when no extracted
Affiliation carries that number.  The concrete conjunct runs the claim's
Solo Author scenario through the full pipeline. -/
theorem unmatched_affiliation_dropped (m : Metadata) :
    (format_authors_with_affiliations m = m.authors.map (fun author =>
      { name := author.name,
        affiliations := author.affiliation_numbers.filterMap (fun t =>
          (dLookup t (buildAffLookup m.affiliations)).map
            (fun txt => (t, txt))),
        metadata := author.metadata })) ∧
    (∀ t, dLookup t (buildAffLookup m.affiliations) = none ↔
      ∀ aff ∈ m.affiliations, aff.number ≠ t) ∧
    format_authors_with_affiliations (extract_all_metadata
        ("\\author".toList ++ '[' :: '9' :: ']' :: '{' ::
          ("Solo Author".toList ++ '}' :: []))) =
      [{ name := "Solo Author".toList, affiliations := [],
         metadata := [] }] := by
  refine ⟨?_, ?_, by decide⟩
  · unfold format_authors_with_affiliations
    apply List.map_congr_left
    intro author _
    have := foldl_resolve_filterMap (buildAffLookup m.affiliations)
      author.affiliation_numbers []
    rw [this]
    simp
  · intro t
    rw [dLookup_buildAffLookup]
    unfold lastAffText
    constructor
    · intro h aff haff hn
      rw [Option.map_eq_none'] at h
      have := List.find?_eq_none.mp h aff (List.mem_reverse.mpr haff)
      simp only [hn, beq_self_eq_true, not_true_eq_false] at this
    · intro h
      rw [Option.map_eq_none']
      apply List.find?_eq_none.mpr
      intro x hx
      have hxne := h x (List.mem_reverse.mp hx)
      simp [hxne]

theorem dLookup_commented_fold (l : List (List Char × List Char))
    (k : List Char) :
    dLookup k (l.foldl (fun d p => dInsert d p.1 (stripChars p.2)) []) =
      (l.reverse.find? (fun p => p.1 == k)).map (fun p => stripChars p.2) := by
  induction l using List.reverseRecOn with
  | nil => rfl
  | append_singleton as p ih =>
    rw [List.foldl_append]
    simp only [List.foldl_cons, List.foldl_nil]
    rw [dLookup_dInsert, List.reverse_append]
    simp only [List.reverse_cons, List.reverse_nil, List.nil_append,
      List.cons_append, List.find?_cons]
    by_cases hk : k = p.1
    · rw [if_pos hk]
      have hb : (p.1 == k) = true := by simp [hk]
      rw [hb]
      rfl
    · rw [if_neg hk]
      have hb : (p.1 == k) = false := by simp [Ne.symm hk]
      rw [hb]
      exact ih

/-- C9: in the commented-macro mapping, every name that occurs in a
commented macro is bound to the trimmed content of its last occurrence in
document order — the dict is filled by the scan in order, each later
occurrence overwriting the earlier binding.  The concrete conjunct is the
claim's example, where the second conferencename occurrence wins. -/
theorem commented_macros_last_wins :
    (∀ (text name : List Char),
      dLookup name (extract_commented_macros text) =
        ((scan matchCommented text).reverse.find?
          (fun p => p.1 == name)).map (fun p => stripChars p.2)) ∧
    dLookup "conferencename".toList
        (extract_commented_macros
          ('%' :: ("\\conferencename".toList ++ '{' :: ("DH2023".toList ++
            '}' :: ' ' :: '%' :: ("\\conferencename".toList ++ '{' ::
            ("DH2024".toList ++ '}' :: [])))))) =
      some "DH2024".toList := by
  refine ⟨?_, by decide⟩
  intro text name
  unfold extract_commented_macros
  exact dLookup_commented_fold (scan matchCommented text) name

/-- C10: when several extracted Affiliations share one number token, the
lookup that format_authors_with_affiliations builds maps that token to the
text of the last such Affiliation in document order — earlier texts for
the token are unreachable through the joiner — and an author whose
affiliation_numbers contain the token therefore resolves it to that last
text. -/
theorem duplicate_affiliation_number_last_wins (m : Metadata)
    (pre mid post : List Affiliation) (a1 a2 : Affiliation)
    (hm : m.affiliations = pre ++ a1 :: (mid ++ a2 :: post))
    (hnum : a1.number = a2.number)
    (hpost : ∀ b ∈ post, b.number ≠ a2.number) :
    dLookup a1.number (buildAffLookup m.affiliations) = some a2.text ∧
    ∀ (i : Nat) (author : Author), m.authors[i]? = some author →
      a1.number ∈ author.affiliation_numbers →
      ∃ fa, (format_authors_with_affiliations m)[i]? = some fa ∧
        (a1.number, a2.text) ∈ fa.affiliations := by
  have hlook : dLookup a1.number (buildAffLookup m.affiliations) =
      some a2.text := by
    rw [dLookup_buildAffLookup, hm]
    unfold lastAffText
    have hrev : (pre ++ a1 :: (mid ++ a2 :: post)).reverse =
        post.reverse ++ a2 :: (mid.reverse ++ a1 :: pre.reverse) := by
      simp
    rw [hrev, List.find?_append]
    have hnone : post.reverse.find?
        (fun a => a.number == a1.number) = none := by
      apply List.find?_eq_none.mpr
      intro x hx
      have := hpost x (List.mem_reverse.mp hx)
      simp [hnum, this]
    rw [hnone, Option.none_or, List.find?_cons_of_pos _ (by simp [hnum])]
    rfl
  refine ⟨hlook, ?_⟩
  intro i author hi htok
  unfold format_authors_with_affiliations
  dsimp only
  refine ⟨{ name := author.name,
            affiliations := author.affiliation_numbers.foldl
              (fun acc aff_num =>
                (match dLookup aff_num (buildAffLookup m.affiliations) with
                  | some t => acc ++ [(aff_num, t)]
                  | none => acc)) [],
            metadata := author.metadata }, ?_, ?_⟩
  · rw [List.getElem?_map, hi]
    rfl
  · show (a1.number, a2.text) ∈ author.affiliation_numbers.foldl _ []
    rw [foldl_resolve_filterMap (buildAffLookup m.affiliations)
      author.affiliation_numbers []]
    simp only [List.nil_append]
    exact List.mem_filterMap.mpr ⟨a1.number, htok, by rw [hlook]; rfl⟩

/-- Witness for C10 at a concrete input: two affiliations numbered 1, an
author referencing 1; the resolved text is that of the second
affiliation. -/
theorem duplicate_affiliation_number_last_wins_witness :
    ∃ fa, (format_authors_with_affiliations
        { title := none,
          authors :=
            [{ name := ['X'], affiliation_numbers := [['1']],
               metadata := [] }],
          affiliations :=
            [{ number := ['1'], text := "MIT".toList },
             { number := ['1'], text := "Stanford".toList }],
          keywords := none, publication_info := [],
          commented_macros := [] })[0]? = some fa ∧
      (['1'], "Stanford".toList) ∈ fa.affiliations :=
  (duplicate_affiliation_number_last_wins _ [] [] []
      { number := ['1'], text := "MIT".toList }
      { number := ['1'], text := "Stanford".toList }
      rfl rfl (by simp)).2 0
    { name := ['X'], affiliation_numbers := [['1']], metadata := [] }
    rfl (by decide)
